import Mathlib

/-!
Verification of the 8-puzzle core of `src/main.rs` (tile-game-rs).

The Rust core is a 3×3 sliding-tile board: `Board { tiles: Vec<u8> }` with
operations `new`, `shuffle`, `is_solved`, `get_blank_position`, `move_tile`.
We embed it shallowly: `Vec<u8>` becomes `List Nat`; `usize` arithmetic is
`Nat` with the `checked_add` / `checked_sub` semantics made explicit;
operations that can panic (an `unwrap` in Rust) return `Option`, with `none`
standing for the panic. The random generator inside `shuffle` is modelled by
an oracle `idxs : Nat → Nat` giving, for each iteration, the index drawn by
`SliceRandom::choose` (taken modulo the slice length).
-/

namespace TileGame

/-- `const BOARD_SIZE: usize = 3`. -/
def BOARD_SIZE : Nat := 3

/-- The largest `usize` value on the 64-bit target (2^64 - 1), for modelling
`usize::checked_add` / `usize::checked_sub`. -/
def USIZE_MAX : Nat := 18446744073709551615

/-- `usize::checked_add`: `none` on overflow past `USIZE_MAX`. -/
def checked_add (a b : Nat) : Option Nat :=
  if a + b ≤ USIZE_MAX then some (a + b) else none

/-- `usize::checked_sub`: `none` on underflow below zero. -/
def checked_sub (a b : Nat) : Option Nat :=
  if b ≤ a then some (a - b) else none

/-- The `Direction` enum. -/
inductive Direction : Type
  | up
  | down
  | left
  | right
deriving DecidableEq

/-- `struct Board { tiles: Vec<u8> }`; 0 represents the blank tile. -/
structure Board : Type where
  tiles : List Nat
deriving DecidableEq

/-- `Board::new`: tiles `(1..=8).collect()` with 0 pushed at the end. -/
def Board.new : Board :=
  { tiles := (List.range' 1 8) ++ [0] }

/-- `Board::is_solved`: `self.tiles == [1, 2, 3, 4, 5, 6, 7, 8, 0]`. -/
def Board.is_solved (b : Board) : Bool :=
  b.tiles == [1, 2, 3, 4, 5, 6, 7, 8, 0]

/-- `Board::get_blank_position`: position of the first tile equal to 0.
Rust unwraps the `Option` returned by `Iterator::position`; we keep the
`Option`, `none` standing for the panic. -/
def Board.get_blank_position (b : Board) : Option Nat :=
  b.tiles.findIdx? (fun tile => tile == 0)

/-- The `tile_to_move_pos` computation of `Board::move_tile`, as a function of
the blank position and the direction. -/
def tile_to_move_pos (blank_pos : Nat) : Direction → Option Nat
  | .up => checked_add blank_pos BOARD_SIZE
  | .down => checked_sub blank_pos BOARD_SIZE
  | .left => Option.filter (fun pos => pos % BOARD_SIZE != 0) (checked_add blank_pos 1)
  | .right =>
      Option.filter (fun pos => pos % BOARD_SIZE != BOARD_SIZE - 1) (checked_sub blank_pos 1)

/-- `Vec::swap` on the tile list; both call sites establish that the indices
are in bounds, so the out-of-range defaults are never read. -/
def listSwap (l : List Nat) (i j : Nat) : List Nat :=
  (l.set i (l.getD j 0)).set j (l.getD i 0)

/-- `Board::move_tile`: swap the blank with the computed source cell when that
cell exists and is in bounds, otherwise leave the board unchanged. `none` is
the panic of the `unwrap` inside `get_blank_position`. -/
def Board.move_tile (b : Board) (d : Direction) : Option Board :=
  match b.get_blank_position with
  | none => none
  | some blank_pos =>
      match tile_to_move_pos blank_pos d with
      | some pos =>
          if pos < b.tiles.length then some { tiles := listSwap b.tiles blank_pos pos }
          else some b
      | none => some b

/-- The `possible_moves` vector of `Board::shuffle`. -/
def possible_moves : List Direction :=
  [.up, .down, .left, .right]

/-- One iteration's candidate list: `possible_moves` with the previous
iteration's direction retained out (`moves.retain(|&m| m != prev_move)`). -/
def candidate_moves (previous_move : Option Direction) : List Direction :=
  match previous_move with
  | none => possible_moves
  | some prev => possible_moves.filter (fun m => m != prev)

/-- `SliceRandom::choose`: `none` on an empty slice, otherwise the element at
the drawn index (the random draw is modelled by `r`, reduced mod the length). -/
def choose (l : List Direction) (r : Nat) : Option Direction :=
  if h : l.length = 0 then none
  else some (l.get ⟨r % l.length, Nat.mod_lt _ (Nat.pos_of_ne_zero h)⟩)

/-- One iteration of the `shuffle` loop: pick a direction from the candidate
list, apply `move_tile`, and remember the attempted direction. `none` stands
for the panic of `choose(..).unwrap()` or of `move_tile`. -/
def shuffleStep (idxs : Nat → Nat) (k : Nat) (s : Board × Option Direction) :
    Option (Board × Option Direction) :=
  match choose (candidate_moves s.2) (idxs k) with
  | none => none
  | some direction =>
      match s.1.move_tile direction with
      | none => none
      | some b' => some (b', some direction)

/-- The state after the first `k` iterations of the `shuffle` loop, starting
from board `b` with no previous move. -/
def shuffleIter (idxs : Nat → Nat) (b : Board) : Nat → Option (Board × Option Direction)
  | 0 => some (b, none)
  | k + 1 => (shuffleIter idxs b k).bind (shuffleStep idxs k)

/-- `Board::shuffle`: 100 iterations of the loop (`for _ in 0..100`). -/
def Board.shuffle (b : Board) (idxs : Nat → Nat) : Option Board :=
  (shuffleIter idxs b 100).map Prod.fst

/-- `applyMoves b ds` plays the directions of `ds` in order via `move_tile`. -/
def applyMoves (b : Board) : List Direction → Option Board
  | [] => some b
  | d :: ds => (b.move_tile d).bind (fun b' => applyMoves b' ds)

/-- `b'` is reachable from `b` by at most `n` legal moves. -/
def ReachableWithin (b b' : Board) (n : Nat) : Prop :=
  ∃ ds : List Direction, ds.length ≤ n ∧ applyMoves b ds = some b'

/-- The solvable equivalence class: boards reachable from the solved board by
legal slides. -/
def Solvable (b : Board) : Prop :=
  ∃ ds : List Direction, applyMoves Board.new ds = some b

/-- A core operation: a single move, or a whole shuffle with its random draws. -/
inductive Op : Type
  | mv (d : Direction)
  | shuf (idxs : Nat → Nat)

/-- Apply one core operation. -/
def applyOp (b : Board) : Op → Option Board
  | .mv d => b.move_tile d
  | .shuf idxs => b.shuffle idxs

/-- Apply a sequence of core operations. -/
def applyOps (b : Board) : List Op → Option Board
  | [] => some b
  | o :: os => (applyOp b o).bind (fun b' => applyOps b' os)

/-- The reference permutation {0,...,8}. -/
def solvedPerm : List Nat :=
  [0, 1, 2, 3, 4, 5, 6, 7, 8]

/-- The board invariant: the tiles are a permutation of {0,...,8}. -/
def Inv (b : Board) : Prop :=
  b.tiles.Perm solvedPerm

instance (b : Board) : Decidable (Inv b) :=
  List.decidablePerm b.tiles solvedPerm

/-- The legality condition of the claims, as a function of the blank index. -/
def legalIdx (i : Nat) : Direction → Prop
  | .up => i + 3 < 9
  | .down => 3 ≤ i
  | .left => i % 3 ≠ 2
  | .right => i % 3 ≠ 0

instance (i : Nat) (d : Direction) : Decidable (legalIdx i d) :=
  match d with
  | .up => inferInstanceAs (Decidable (i + 3 < 9))
  | .down => inferInstanceAs (Decidable (3 ≤ i))
  | .left => inferInstanceAs (Decidable (i % 3 ≠ 2))
  | .right => inferInstanceAs (Decidable (i % 3 ≠ 0))

/-- The cell the blank moves to, as a function of the blank index. -/
def targetIdx (i : Nat) : Direction → Nat
  | .up => i + 3
  | .down => i - 3
  | .left => i + 1
  | .right => i - 1

/-- The opposite direction. -/
def opposite : Direction → Direction
  | .up => .down
  | .down => .up
  | .left => .right
  | .right => .left

/-! ### Basic facts about the invariant -/

theorem Inv.length_tiles {b : Board} (h : Inv b) : b.tiles.length = 9 :=
  h.length_eq

theorem Inv.nodup_tiles {b : Board} (h : Inv b) : b.tiles.Nodup :=
  h.nodup_iff.mpr (by decide)

theorem Inv.zero_mem {b : Board} (h : Inv b) : 0 ∈ b.tiles :=
  h.mem_iff.mpr (by decide)

/-! ### The blank position -/

theorem blank_spec {b : Board} {i : Nat} (h : b.get_blank_position = some i) :
    i < b.tiles.length ∧ b.tiles[i]? = some 0 := by
  rw [Board.get_blank_position, List.findIdx?_eq_some_iff_findIdx_eq] at h
  obtain ⟨hlt, hfi⟩ := h
  subst hfi
  refine ⟨hlt, ?_⟩
  have hp := @List.findIdx_getElem _ (fun tile => tile == 0) b.tiles hlt
  have hz : b.tiles[List.findIdx (fun tile => tile == 0) b.tiles] = 0 := by
    simpa using hp
  rw [List.getElem?_eq_getElem hlt, hz]

theorem blank_isSome {b : Board} (h0 : 0 ∈ b.tiles) :
    ∃ i, b.get_blank_position = some i := by
  rw [Board.get_blank_position]
  have hs : (b.tiles.findIdx? (fun tile => tile == 0)).isSome = true := by
    rw [List.findIdx?_isSome]
    exact List.any_eq_true.mpr ⟨0, h0, by decide⟩
  exact Option.isSome_iff_exists.mp hs

theorem zero_index_unique {b : Board} (h : Inv b) {i j : Nat}
    (hi : b.tiles[i]? = some 0) (hj : b.tiles[j]? = some 0) : i = j := by
  obtain ⟨hi_lt, hi_eq⟩ := List.getElem?_eq_some.mp hi
  obtain ⟨hj_lt, hj_eq⟩ := List.getElem?_eq_some.mp hj
  exact h.nodup_tiles.getElem_inj_iff.mp (by rw [hi_eq, hj_eq])

theorem blank_of_zero {b : Board} (h : Inv b) {i : Nat}
    (hz : b.tiles[i]? = some 0) : b.get_blank_position = some i := by
  obtain ⟨k, hk⟩ := blank_isSome h.zero_mem
  rw [hk]
  exact congrArg some (zero_index_unique h (blank_spec hk).2 hz)

/-! ### The swap -/

theorem listSwap_length (l : List Nat) (i j : Nat) :
    (listSwap l i j).length = l.length := by
  simp [listSwap]

theorem getElem?_listSwap_left {l : List Nat} {i j : Nat}
    (hi : i < l.length) (hj : j < l.length) (hne : i ≠ j) :
    (listSwap l i j)[i]? = l[j]? := by
  rw [listSwap, List.getElem?_set_ne (Ne.symm hne), List.getElem?_set_self hi,
    List.getD_eq_getElem l 0 hj, List.getElem?_eq_getElem hj]

theorem getElem?_listSwap_right {l : List Nat} {i j : Nat}
    (hi : i < l.length) (hj : j < l.length) :
    (listSwap l i j)[j]? = l[i]? := by
  rw [listSwap, List.getElem?_set_self (by simpa using hj),
    List.getD_eq_getElem l 0 hi, List.getElem?_eq_getElem hi]

theorem getElem?_listSwap_other {l : List Nat} {i j k : Nat}
    (hki : k ≠ i) (hkj : k ≠ j) :
    (listSwap l i j)[k]? = l[k]? := by
  rw [listSwap, List.getElem?_set_ne (Ne.symm hkj), List.getElem?_set_ne (Ne.symm hki)]

theorem listSwap_perm {l : List Nat} {i j : Nat}
    (hi : i < l.length) (hj : j < l.length) (hne : i ≠ j) :
    (listSwap l i j).Perm l := by
  have hj' : j < (l.set i (l.getD j 0)).length := by simpa using hj
  rw [List.perm_iff_count]
  intro a
  rw [listSwap, List.count_set _ _ _ _ hj', List.count_set _ _ _ _ hi,
    List.getElem_set_ne hne hj']
  simp only [List.getD_eq_getElem l 0 hj, List.getD_eq_getElem l 0 hi]
  have hmi : l[i] ∈ l := List.getElem_mem hi
  have hmj : l[j] ∈ l := List.getElem_mem hj
  simp only [beq_iff_eq]
  by_cases hP : l[i] = a <;> by_cases hQ : l[j] = a
  · have h1 : 0 < List.count a l := List.count_pos_iff.mpr (hP ▸ hmi)
    simp [hP, hQ]
    omega
  · have h1 : 0 < List.count a l := List.count_pos_iff.mpr (hP ▸ hmi)
    simp [hP, hQ]
    omega
  · have h1 : 0 < List.count a l := List.count_pos_iff.mpr (hQ ▸ hmj)
    simp [hP, hQ]
  · simp [hP, hQ]

theorem listSwap_listSwap {l : List Nat} {i j : Nat}
    (hi : i < l.length) (hj : j < l.length) (hne : i ≠ j) :
    listSwap (listSwap l i j) j i = l := by
  have hi' : i < (listSwap l i j).length := by rw [listSwap_length]; exact hi
  have hj' : j < (listSwap l i j).length := by rw [listSwap_length]; exact hj
  apply List.ext_getElem?
  intro n
  by_cases hni : n = i
  · subst hni
    rw [getElem?_listSwap_right hj' hi']
    exact getElem?_listSwap_right hi hj
  · by_cases hnj : n = j
    · subst hnj
      rw [getElem?_listSwap_left hj' hi' (Ne.symm hne)]
      exact getElem?_listSwap_left hi hj hne
    · rw [getElem?_listSwap_other hnj hni, getElem?_listSwap_other hni hnj]

/-! ### Evaluating `tile_to_move_pos` -/

theorem tile_to_move_pos_up {i : Nat} (hi : i < 9) :
    tile_to_move_pos i .up = some (i + 3) := by
  simp only [tile_to_move_pos, checked_add, BOARD_SIZE, USIZE_MAX]
  rw [if_pos (by omega)]

theorem tile_to_move_pos_down {i : Nat} (h : 3 ≤ i) :
    tile_to_move_pos i .down = some (i - 3) := by
  simp only [tile_to_move_pos, checked_sub, BOARD_SIZE]
  rw [if_pos h]

theorem tile_to_move_pos_down_wall {i : Nat} (h : i < 3) :
    tile_to_move_pos i .down = none := by
  simp only [tile_to_move_pos, checked_sub, BOARD_SIZE]
  rw [if_neg (by omega)]

theorem tile_to_move_pos_left {i : Nat} (hi : i < 9) (h : i % 3 ≠ 2) :
    tile_to_move_pos i .left = some (i + 1) := by
  simp only [tile_to_move_pos, checked_add, BOARD_SIZE, USIZE_MAX]
  rw [if_pos (by omega)]
  simp only [Option.filter]
  rw [if_pos (by simp only [bne_iff_ne]; omega)]

theorem tile_to_move_pos_left_wall {i : Nat} (hi : i < 9) (h : i % 3 = 2) :
    tile_to_move_pos i .left = none := by
  simp only [tile_to_move_pos, checked_add, BOARD_SIZE, USIZE_MAX]
  rw [if_pos (by omega)]
  simp only [Option.filter]
  rw [if_neg (by simp only [bne_iff_ne]; omega)]

theorem tile_to_move_pos_right {i : Nat} (h : i % 3 ≠ 0) :
    tile_to_move_pos i .right = some (i - 1) := by
  simp only [tile_to_move_pos, checked_sub, BOARD_SIZE]
  rw [if_pos (by omega)]
  simp only [Option.filter]
  rw [if_pos (by simp only [bne_iff_ne]; omega)]

theorem tile_to_move_pos_right_wall {i : Nat} (h : i % 3 = 0) :
    tile_to_move_pos i .right = none := by
  simp only [tile_to_move_pos, checked_sub, BOARD_SIZE]
  by_cases h1 : 1 ≤ i
  · rw [if_pos h1]
    simp only [Option.filter]
    rw [if_neg (by simp only [bne_iff_ne]; omega)]
  · rw [if_neg h1]
    rfl

/-! ### Characterizing `move_tile` -/

theorem move_tile_of_target_some {b : Board} {i pos : Nat} {d : Direction}
    (hb : b.get_blank_position = some i) (ht : tile_to_move_pos i d = some pos) :
    b.move_tile d =
      if pos < b.tiles.length then some { tiles := listSwap b.tiles i pos } else some b := by
  simp only [Board.move_tile, hb, ht]

theorem move_tile_of_target_none {b : Board} {i : Nat} {d : Direction}
    (hb : b.get_blank_position = some i) (ht : tile_to_move_pos i d = none) :
    b.move_tile d = some b := by
  simp only [Board.move_tile, hb, ht]

theorem target_some {i : Nat} {d : Direction} (hi : i < 9) (hleg : legalIdx i d) :
    tile_to_move_pos i d = some (targetIdx i d) := by
  cases d with
  | up => exact tile_to_move_pos_up hi
  | down => exact tile_to_move_pos_down hleg
  | left => exact tile_to_move_pos_left hi hleg
  | right => exact tile_to_move_pos_right hleg

theorem move_tile_legal {b : Board} {i : Nat} {d : Direction} (hInv : Inv b)
    (hb : b.get_blank_position = some i) (hleg : legalIdx i d) :
    b.move_tile d = some { tiles := listSwap b.tiles i (targetIdx i d) } := by
  have hlen : b.tiles.length = 9 := hInv.length_tiles
  have hi : i < 9 := hlen ▸ (blank_spec hb).1
  rw [move_tile_of_target_some hb (target_some hi hleg), hlen, if_pos ?_]
  cases d <;> simp only [legalIdx] at hleg <;> simp only [targetIdx] <;> omega

theorem move_tile_wall {b : Board} {i : Nat} {d : Direction} (hInv : Inv b)
    (hb : b.get_blank_position = some i) (hill : ¬ legalIdx i d) :
    b.move_tile d = some b := by
  have hlen : b.tiles.length = 9 := hInv.length_tiles
  have hi : i < 9 := hlen ▸ (blank_spec hb).1
  cases d with
  | up =>
      simp only [legalIdx] at hill
      rw [move_tile_of_target_some hb (tile_to_move_pos_up hi), hlen, if_neg hill]
  | down =>
      simp only [legalIdx] at hill
      rw [move_tile_of_target_none hb (tile_to_move_pos_down_wall (by omega))]
  | left =>
      simp only [legalIdx] at hill
      rw [move_tile_of_target_none hb (tile_to_move_pos_left_wall hi (by omega))]
  | right =>
      simp only [legalIdx] at hill
      rw [move_tile_of_target_none hb (tile_to_move_pos_right_wall (by omega))]

theorem target_lt {i : Nat} {d : Direction} (hi : i < 9) (hleg : legalIdx i d) :
    targetIdx i d < 9 := by
  cases d <;> simp only [legalIdx] at hleg <;> simp only [targetIdx] <;> omega

theorem target_ne {i : Nat} {d : Direction} (hleg : legalIdx i d) :
    i ≠ targetIdx i d := by
  cases d <;> simp only [legalIdx] at hleg <;> simp only [targetIdx] <;> omega

theorem move_tile_some {b : Board} (d : Direction) (hInv : Inv b) :
    ∃ b', b.move_tile d = some b' ∧ Inv b' := by
  obtain ⟨i, hb⟩ := blank_isSome hInv.zero_mem
  have hlen : b.tiles.length = 9 := hInv.length_tiles
  have hi : i < 9 := hlen ▸ (blank_spec hb).1
  by_cases hleg : legalIdx i d
  · refine ⟨_, move_tile_legal hInv hb hleg, ?_⟩
    have hperm : (listSwap b.tiles i (targetIdx i d)).Perm b.tiles :=
      listSwap_perm (by omega) (by rw [hlen]; exact target_lt hi hleg) (target_ne hleg)
    exact hperm.trans hInv
  · exact ⟨b, move_tile_wall hInv hb hleg, hInv⟩

/-! ### The shuffle loop -/

theorem candidate_moves_length (prev : Option Direction) :
    3 ≤ (candidate_moves prev).length := by
  cases prev with
  | none => decide
  | some p => cases p <;> decide

theorem choose_spec (l : List Direction) (r : Nat) (hl : l.length ≠ 0) :
    ∃ d, choose l r = some d ∧ d ∈ l := by
  rw [choose, dif_neg hl]
  exact ⟨_, rfl, List.get_mem _ _ _⟩

theorem mem_candidate_ne {d p : Direction} (h : d ∈ candidate_moves (some p)) : d ≠ p := by
  revert h
  cases d <;> cases p <;> decide

theorem shuffleStep_some {idxs : Nat → Nat} {k : Nat} {s : Board × Option Direction}
    (hInv : Inv s.1) :
    ∃ b' d, shuffleStep idxs k s = some (b', some d) ∧ Inv b' ∧ d ∈ candidate_moves s.2 ∧
      s.1.move_tile d = some b' := by
  have hl : (candidate_moves s.2).length ≠ 0 := by
    have := candidate_moves_length s.2
    omega
  obtain ⟨d, hd, hdm⟩ := choose_spec _ (idxs k) hl
  obtain ⟨b', hb', hInv'⟩ := move_tile_some d hInv
  refine ⟨b', d, ?_, hInv', hdm, hb'⟩
  simp only [shuffleStep, hd, hb']

theorem shuffleStep_eq_some {idxs : Nat → Nat} {k : Nat} {s s' : Board × Option Direction}
    (h : shuffleStep idxs k s = some s') :
    ∃ d, choose (candidate_moves s.2) (idxs k) = some d ∧
      s.1.move_tile d = some s'.1 ∧ s'.2 = some d := by
  cases hc : choose (candidate_moves s.2) (idxs k) with
  | none =>
      simp only [shuffleStep, hc] at h
      exact absurd h (by simp)
  | some d =>
      cases hm : s.1.move_tile d with
      | none =>
          simp only [shuffleStep, hc, hm] at h
          exact absurd h (by simp)
      | some b' =>
          simp only [shuffleStep, hc, hm] at h
          obtain rfl : (b', some d) = s' := Option.some_inj.mp h
          exact ⟨d, rfl, hm, rfl⟩

theorem shuffleIter_some {idxs : Nat → Nat} {b : Board} (hInv : Inv b) (k : Nat) :
    ∃ s, shuffleIter idxs b k = some s ∧ Inv s.1 := by
  induction k with
  | zero => exact ⟨(b, none), rfl, hInv⟩
  | succ k ih =>
      obtain ⟨s, hs, hI⟩ := ih
      obtain ⟨b', d, hstep, hI', -, -⟩ := shuffleStep_some hI
      refine ⟨(b', some d), ?_, hI'⟩
      rw [shuffleIter, hs]
      exact hstep

theorem shuffle_some {b : Board} (idxs : Nat → Nat) (hInv : Inv b) :
    ∃ b', b.shuffle idxs = some b' ∧ Inv b' := by
  obtain ⟨s, hs, hI⟩ := shuffleIter_some hInv 100
  exact ⟨s.1, by rw [Board.shuffle, hs]; rfl, hI⟩

theorem shuffle_inv {b b' : Board} {idxs : Nat → Nat} (hInv : Inv b)
    (h : b.shuffle idxs = some b') : Inv b' := by
  obtain ⟨b2, hb2, hI⟩ := shuffle_some idxs hInv
  rw [h] at hb2
  exact Option.some_inj.mp hb2 ▸ hI

/-! ### Reachability -/

theorem applyMoves_append (b : Board) (ds : List Direction) (d : Direction) :
    applyMoves b (ds ++ [d]) =
      (applyMoves b ds).bind (fun x => x.move_tile d) := by
  induction ds generalizing b with
  | nil =>
      simp [applyMoves]
  | cons e es ih =>
      simp only [List.cons_append, applyMoves]
      cases b.move_tile e with
      | none => rfl
      | some b2 => simpa using ih b2

theorem shuffleIter_reachable {idxs : Nat → Nat} {b0 : Board} (k : Nat)
    {s : Board × Option Direction} (h : shuffleIter idxs b0 k = some s) :
    ∃ ds : List Direction, ds.length ≤ k ∧ applyMoves b0 ds = some s.1 := by
  induction k generalizing s with
  | zero =>
      obtain rfl : (b0, (none : Option Direction)) = s := Option.some_inj.mp h
      exact ⟨[], by simp, rfl⟩
  | succ k ih =>
      rw [shuffleIter] at h
      obtain ⟨s0, hs0, hstep⟩ := Option.bind_eq_some.mp h
      obtain ⟨ds, hlen, happ⟩ := ih hs0
      obtain ⟨d, -, hm, -⟩ := shuffleStep_eq_some hstep
      refine ⟨ds ++ [d], by simp; omega, ?_⟩
      rw [applyMoves_append, happ]
      exact hm

/-! ### The claims -/

/-- C1: on a board satisfying the permutation invariant, a legal move swaps
the blank (value 0) with the adjacent tile in the given direction: Up with
index `i + 3` when `i + 3 < 9`, Down with `i - 3` when `3 ≤ i`, Left with
`i + 1` when `i % 3 ≠ 2`, Right with `i - 1` when `i % 3 ≠ 0`. Afterwards the
blank occupies the adjacent cell, the displaced tile occupies the blank's
former cell, and all other cells are unchanged. -/
theorem C1_move_swaps_blank {b : Board} {i : Nat} {d : Direction} (hInv : Inv b)
    (hb : b.get_blank_position = some i) (hleg : legalIdx i d) :
    ∃ b', b.move_tile d = some b' ∧
      b'.tiles[targetIdx i d]? = some 0 ∧
      b'.tiles[i]? = b.tiles[targetIdx i d]? ∧
      ∀ k, k ≠ i → k ≠ targetIdx i d → b'.tiles[k]? = b.tiles[k]? := by
  have hlen := hInv.length_tiles
  have hi : i < b.tiles.length := (blank_spec hb).1
  have hz : b.tiles[i]? = some 0 := (blank_spec hb).2
  have ht : targetIdx i d < b.tiles.length := by
    rw [hlen]
    exact target_lt (hlen ▸ hi) hleg
  have hne := target_ne hleg
  refine ⟨_, move_tile_legal hInv hb hleg, ?_, ?_, ?_⟩
  · exact (getElem?_listSwap_right hi ht).trans hz
  · exact getElem?_listSwap_left hi ht hne
  · exact fun k hki hkj => getElem?_listSwap_other hki hkj

/-- Witness for C1: moving Down on the solved board swaps the blank at index 8
with the tile at index 5. -/
theorem C1_witness :
    ∃ b', Board.new.move_tile .down = some b' ∧
      b'.tiles[targetIdx 8 .down]? = some 0 ∧
      b'.tiles[8]? = Board.new.tiles[targetIdx 8 .down]? ∧
      ∀ k, k ≠ 8 → k ≠ targetIdx 8 .down → b'.tiles[k]? = Board.new.tiles[k]? :=
  C1_move_swaps_blank (by decide) (by decide) (by decide)

/-- C2: on a board satisfying the permutation invariant, a move whose legality
condition fails is a silent no-op: `move_tile` returns the board unchanged and
signals no error. -/
theorem C2_move_wall_noop {b : Board} {i : Nat} {d : Direction} (hInv : Inv b)
    (hb : b.get_blank_position = some i) (hill : ¬ legalIdx i d) :
    b.move_tile d = some b :=
  move_tile_wall hInv hb hill

/-- Witness for C2: moving Up on the solved board (blank in the bottom row)
leaves the board unchanged. -/
theorem C2_witness : Board.new.move_tile .up = some Board.new :=
  C2_move_wall_noop (i := 8) (by decide) (by decide) (by decide)

/-- C3: `shuffle` performs exactly 100 iterations of the loop; the candidate
list of the first iteration is all four directions, and after an iteration
that attempted `p` it is the four directions with `p` filtered out; each
iteration's chosen direction comes from the candidate list (so it differs
from the previous attempted direction), it is applied via `move_tile` (with
its silent-no-op wall behavior), and the remembered previous direction
becomes the attempted direction whether or not a swap occurred. -/
theorem C3_shuffle_structure (idxs : Nat → Nat) (b : Board) :
    b.shuffle idxs = (shuffleIter idxs b 100).map Prod.fst ∧
    shuffleIter idxs b 0 = some (b, none) ∧
    (∀ k, shuffleIter idxs b (k + 1) = (shuffleIter idxs b k).bind (shuffleStep idxs k)) ∧
    candidate_moves none = possible_moves ∧
    (∀ p, candidate_moves (some p) = possible_moves.filter (fun m => m != p)) ∧
    (∀ k s, ∃ d, choose (candidate_moves s.2) (idxs k) = some d ∧
      d ∈ candidate_moves s.2 ∧
      (∀ p, s.2 = some p → d ≠ p) ∧
      shuffleStep idxs k s = (s.1.move_tile d).map (fun b2 => (b2, some d))) := by
  refine ⟨rfl, rfl, fun k => rfl, rfl, fun p => rfl, fun k s => ?_⟩
  have hl : (candidate_moves s.2).length ≠ 0 := by
    have := candidate_moves_length s.2
    omega
  obtain ⟨d, hd, hdm⟩ := choose_spec _ (idxs k) hl
  refine ⟨d, hd, hdm, fun p hp => mem_candidate_ne (hp ▸ hdm), ?_⟩
  simp only [shuffleStep, hd]
  cases s.1.move_tile d <;> rfl

/-- Helper for C4: `applyOps` preserves the invariant from any invariant
starting board. -/
theorem applyOps_inv {b0 b : Board} {ops : List Op} (h0 : Inv b0)
    (h : applyOps b0 ops = some b) : Inv b := by
  induction ops generalizing b0 with
  | nil => exact (Option.some_inj.mp h) ▸ h0
  | cons o os ih =>
      rw [applyOps] at h
      obtain ⟨b1, hb1, hrest⟩ := Option.bind_eq_some.mp h
      refine ih ?_ hrest
      cases o with
      | mv d =>
          obtain ⟨b2, hb2, hI⟩ := move_tile_some d h0
          simp only [applyOp] at hb1
          rw [hb2] at hb1
          exact Option.some_inj.mp hb1 ▸ hI
      | shuf idxs =>
          simp only [applyOp] at hb1
          exact shuffle_inv h0 hb1

/-- C4: every board produced from the constructed (solved) board by any
sequence of moves and shuffles (under any outcomes of the random draws)
satisfies the invariant: its cells are a permutation of {0,...,8}. -/
theorem C4_invariant_closed (ops : List Op) {b : Board}
    (h : applyOps Board.new ops = some b) : Inv b :=
  applyOps_inv (by decide) h

/-- Witness for C4: the empty sequence of operations yields the solved board,
which satisfies the invariant. -/
theorem C4_witness : applyOps Board.new [] = some Board.new ∧ Inv Board.new :=
  ⟨rfl, C4_invariant_closed [] rfl⟩

/-- C5: whatever the random draws, the board produced by `shuffle` from the
solved state is reachable from the solved state by at most 100 legal moves,
and hence lies in the solvable equivalence class. -/
theorem C5_shuffle_solvable {idxs : Nat → Nat} {b : Board}
    (h : Board.new.shuffle idxs = some b) :
    ReachableWithin Board.new b 100 ∧ Solvable b := by
  rw [Board.shuffle] at h
  obtain ⟨s, hs, hfst⟩ := Option.map_eq_some'.mp h
  obtain ⟨ds, hlen, happ⟩ := shuffleIter_reachable 100 hs
  rw [hfst] at happ
  exact ⟨⟨ds, hlen, happ⟩, ⟨ds, happ⟩⟩

/-- Witness for C5: the shuffle whose draws are all 0 produces the board
`[1,2,3,4,5,0,7,8,6]`, reachable from solved within 100 moves and solvable. -/
theorem C5_witness :
    ReachableWithin Board.new { tiles := [1, 2, 3, 4, 5, 0, 7, 8, 6] } 100 ∧
    Solvable { tiles := [1, 2, 3, 4, 5, 0, 7, 8, 6] } :=
  @C5_shuffle_solvable (fun _ => 0) { tiles := [1, 2, 3, 4, 5, 0, 7, 8, 6] } rfl

/-- C6: on a board satisfying the permutation invariant, `is_solved` returns
true iff the tiles equal `[1,2,3,4,5,6,7,8,0]` in value and order, and false
for every other permutation. -/
theorem C6_is_solved_iff {b : Board} (_hInv : Inv b) :
    b.is_solved = true ↔ b.tiles = [1, 2, 3, 4, 5, 6, 7, 8, 0] := by
  rw [Board.is_solved]
  exact beq_iff_eq

/-- Witness for C6 at the solved board. -/
theorem C6_witness : Board.new.is_solved = true :=
  (C6_is_solved_iff (by decide)).mpr (by decide)

/-- C7: on a board satisfying the permutation invariant, `blank_position`
returns (never failing) the unique index holding value 0. -/
theorem C7_blank_unique {b : Board} (hInv : Inv b) :
    ∃ i, b.get_blank_position = some i ∧ b.tiles[i]? = some 0 ∧
      ∀ j, b.tiles[j]? = some 0 → j = i := by
  obtain ⟨i, hb⟩ := blank_isSome hInv.zero_mem
  exact ⟨i, hb, (blank_spec hb).2, fun j hj => zero_index_unique hInv hj (blank_spec hb).2⟩

/-- Witness for C7 at the solved board. -/
theorem C7_witness :
    ∃ i, Board.new.get_blank_position = some i ∧ Board.new.tiles[i]? = some 0 ∧
      ∀ j, Board.new.tiles[j]? = some 0 → j = i :=
  C7_blank_unique (by decide)

/-- C8: the constructor takes no input and always returns the canonical solved
permutation `[1,2,3,4,5,6,7,8,0]`, with no failure modes. -/
theorem C8_new_solved : Board.new.tiles = [1, 2, 3, 4, 5, 6, 7, 8, 0] := by
  decide

/-- C9: under the permutation invariant neither unwrap is reachable: the
search for the 0 tile always succeeds, every iteration's candidate list keeps
at least three of the four directions, the random choice from it never yields
nothing, and the whole shuffle never panics. -/
theorem C9_unwraps_unreachable {b : Board} (idxs : Nat → Nat) (hInv : Inv b) :
    (∃ i, b.get_blank_position = some i) ∧
    (∀ prev, 3 ≤ (candidate_moves prev).length) ∧
    (∀ prev r, ∃ d, choose (candidate_moves prev) r = some d) ∧
    (∃ b', b.shuffle idxs = some b') := by
  refine ⟨blank_isSome hInv.zero_mem, candidate_moves_length, fun prev r => ?_, ?_⟩
  · have hl : (candidate_moves prev).length ≠ 0 := by
      have := candidate_moves_length prev
      omega
    obtain ⟨d, hd, -⟩ := choose_spec _ r hl
    exact ⟨d, hd⟩
  · obtain ⟨b', hb', -⟩ := shuffle_some idxs hInv
    exact ⟨b', hb'⟩

/-- Witness for C9 at the solved board with all draws 0. -/
theorem C9_witness :
    (∃ i, Board.new.get_blank_position = some i) ∧
    (∀ prev, 3 ≤ (candidate_moves prev).length) ∧
    (∀ prev r, ∃ d, choose (candidate_moves prev) r = some d) ∧
    (∃ b', Board.new.shuffle (fun _ => 0) = some b') :=
  C9_unwraps_unreachable (fun _ => 0) (by decide)

/-- C10: on a board satisfying the permutation invariant, if a move changes
the board, then the opposite move immediately restores the original board. -/
theorem C10_move_undo {b b' : Board} {d : Direction} (hInv : Inv b)
    (h : b.move_tile d = some b') (hne : b' ≠ b) :
    b'.move_tile (opposite d) = some b := by
  obtain ⟨i, hb⟩ := blank_isSome hInv.zero_mem
  have hlen := hInv.length_tiles
  have hi : i < b.tiles.length := (blank_spec hb).1
  have hi9 : i < 9 := hlen ▸ hi
  by_cases hleg : legalIdx i d
  case neg =>
      rw [move_tile_wall hInv hb hleg] at h
      exact absurd (Option.some_inj.mp h).symm hne
  case pos =>
      have hmv := move_tile_legal hInv hb hleg
      rw [hmv] at h
      obtain rfl : ({ tiles := listSwap b.tiles i (targetIdx i d) } : Board) = b' :=
        Option.some_inj.mp h
      set j := targetIdx i d with hj
      have htj : j < b.tiles.length := by
        rw [hlen]
        exact target_lt hi9 hleg
      have hnij : i ≠ j := target_ne hleg
      have hInv2 : Inv { tiles := listSwap b.tiles i j } :=
        (listSwap_perm hi htj hnij).trans hInv
      have hz : b.tiles[i]? = some 0 := (blank_spec hb).2
      have hz2 : (listSwap b.tiles i j)[j]? = some 0 := by
        rw [getElem?_listSwap_right hi htj]
        exact hz
      have hb2 : ({ tiles := listSwap b.tiles i j } : Board).get_blank_position = some j :=
        blank_of_zero hInv2 hz2
      have hleg2 : legalIdx j (opposite d) := by
        cases d <;> simp only [legalIdx, targetIdx, opposite] at hleg hj ⊢ <;> omega
      have htarget : targetIdx j (opposite d) = i := by
        cases d <;> simp only [legalIdx, targetIdx, opposite] at hleg hj ⊢ <;> omega
      rw [move_tile_legal hInv2 hb2 hleg2, htarget, listSwap_listSwap hi htj hnij]

/-- Witness for C10: Down then Up from the solved board restores it. -/
theorem C10_witness :
    ({ tiles := [1, 2, 3, 4, 5, 0, 7, 8, 6] } : Board).move_tile (opposite .down) =
      some Board.new :=
  C10_move_undo (by decide) (by decide) (by decide)

end TileGame
